import Mathlib

/-!
Shallow embedding of the core of `src/ts/fractals/rand-ifs.ts` (class `RandomIFS`)
together with the window type from `src/ts/fractalApps/interfaces/window-table.ts`.

JavaScript numbers are modelled as rationals and `Math.floor` as `Int.floor`.
`Math.random()` draws are passed in explicitly, so every stateful method takes the
random values it consumes as an argument.  The unbounded `while (true)` loop of
`findFixedPointStochastic` is modelled by consuming a finite list of "rounds" of
randomness; exhausting the list corresponds to the run of the loop that never
returned within that randomness.
-/

/-- A coordinate `{x: number, y: number}` as in `types.ts`. -/
structure Coordinate where
  x : ℚ
  y : ℚ
deriving DecidableEq, Inhabited

/-- The window bounds type `WindowCoordinates` from `window-table.ts`. -/
structure WindowCoordinates where
  a1 : ℚ
  b1 : ℚ
  a2 : ℚ
  b2 : ℚ
deriving DecidableEq, Inhabited

/-- Modelled from the spec: the class `AffineTransform` lives in
`src/ts/fractals/affine-transform.ts`, which is not among the provided sources.
The spec (section 3) describes it as six real coefficients `(a,b,c,d,e,f)`
defining `x' = a·x + b·y + e`, `y' = c·x + d·y + f`; `rand-ifs.ts` reads and
writes its fields `e` and `f` during calibration. -/
structure AffineTransform where
  a : ℚ
  b : ℚ
  c : ℚ
  d : ℚ
  e : ℚ
  f : ℚ
deriving DecidableEq, Inhabited

/-- Modelled from the spec: `AffineTransform.createMatrix` is in the missing
`affine-transform.ts`.  The matrix layout `[a, b, c, d, e, f]` is the one
consistent with the spec formula and with how `applyMatrix` in `rand-ifs.ts`
indexes the array (entries 0, 1, 4 for `x` and 2, 3, 5 for `y`). -/
def createMatrix (t : AffineTransform) : List ℚ :=
  [t.a, t.b, t.c, t.d, t.e, t.f]

/-- Modelled from the spec (section 7): the error taxonomy `ConfigurationError`.
No such type appears anywhere in the provided sources. -/
inductive ConfigurationError
  | malformedTable
  | degenerateWindow
  | badCanvasDimensions
deriving DecidableEq

/-- The kind of a point emission: `drawCurrentPointRed` (the highlight drawing,
red and larger) versus `drawCurrentPoint` (the default drawing). -/
inductive EmissionKind
  | highlight
  | normal
deriving DecidableEq, Inhabited

/-- One point handed to the rendering collaborator: the pixel point produced by
`invWindowTransform` together with which drawing routine was used. -/
structure Emission where
  point : Coordinate
  kind : EmissionKind
deriving DecidableEq, Inhabited

/-- The field `POINT_TOLERANCE = 2` of `RandomIFS`. -/
def POINT_TOLERANCE : ℚ := 2

/-- The mutable state of a `RandomIFS` instance: its fields, minus the
canvas/context handles (the canvas contributes only its `width` and `height`)
and the constant fields modelled as standalone definitions. -/
structure RandomIFS where
  width : ℚ
  height : ℚ
  matrices : List (List ℚ)
  transformProbs : List ℚ
  currentPoint : Coordinate
  numPoints : ℕ
  numIters : ℕ
  pointsDrawn : ℕ
  a1 : ℚ
  b1 : ℚ
  a2 : ℚ
  b2 : ℚ
  x0 : ℚ
  y0 : ℚ
deriving DecidableEq, Inhabited

/-- Method `RandomIFS.windowTransform`: canvas coordinate to window coordinate. -/
def windowTransform (ifs : RandomIFS) (c : Coordinate) : Coordinate :=
  ⟨(c.x - ifs.x0) * (ifs.b1 - ifs.a1),
   (c.y - ifs.y0) * (ifs.b2 - ifs.a2)⟩

/-- Method `RandomIFS.invWindowTransform`: window coordinate to canvas coordinate,
with `Math.floor` applied to both components. -/
def invWindowTransform (ifs : RandomIFS) (c : Coordinate) : Coordinate :=
  ⟨((⌊c.x / (ifs.b1 - ifs.a1) + ifs.x0⌋ : ℤ) : ℚ),
   ((⌊c.y / (ifs.b2 - ifs.a2) + ifs.y0⌋ : ℤ) : ℚ)⟩

/-- Method `RandomIFS.applyMatrix`: apply a matrix `[a,b,c,d,e,f]` to a coordinate.
Both output components go through `Math.floor`.  Out-of-range indexing (which
in JavaScript would read `undefined` and poison the result with `NaN`) is
modelled with default 0; every claim uses full six-entry matrices. -/
def applyMatrix (matrix : List ℚ) (c : Coordinate) : Coordinate :=
  ⟨((⌊matrix.getD 0 0 * c.x + matrix.getD 1 0 * c.y + matrix.getD 4 0⌋ : ℤ) : ℚ),
   ((⌊matrix.getD 2 0 * c.x + matrix.getD 3 0 * c.y + matrix.getD 5 0⌋ : ℤ) : ℚ)⟩

/-- Modelled from the spec: the exact affine formula
`(a·x + b·y + e, c·x + d·y + f)` that section 4.1 says the transform
application computes, with no flooring.  Kept separate from `applyMatrix`
(the code) so the two can be compared. -/
def affineFormula (matrix : List ℚ) (c : Coordinate) : Coordinate :=
  ⟨matrix.getD 0 0 * c.x + matrix.getD 1 0 * c.y + matrix.getD 4 0,
   matrix.getD 2 0 * c.x + matrix.getD 3 0 * c.y + matrix.getD 5 0⟩

/-- Method `RandomIFS.calibrateAffineTransforms`: multiply each transform's `e` by the
canvas width and `f` by the canvas height. -/
def calibrateAffineTransforms (width height : ℚ) (affineTransforms : List AffineTransform) :
    List AffineTransform :=
  affineTransforms.map fun t => { t with e := t.e * width, f := t.f * height }

/-- Method `RandomIFS.gatherMatrices`: collect `createMatrix` of each transform. -/
def gatherMatrices (affineTransforms : List AffineTransform) : List (List ℚ) :=
  affineTransforms.map createMatrix

/-- The loop guard of `randomMatrix` at index `i`:
`rand >= transformProbs[i] && rand <= transformProbs[i+1]`.  In JavaScript a
comparison against an out-of-range (`undefined`) entry is false, hence the
`Option` match. -/
def probCondition (probs : List ℚ) (u : ℚ) (i : ℕ) : Bool :=
  match probs.get? i, probs.get? (i + 1) with
  | some thisProb, some nextProb => decide (thisProb ≤ u ∧ u ≤ nextProb)
  | _, _ => false

/-- The scan of the `for` loop in `RandomIFS.randomMatrix`, starting at
index `i`: return `matrices[i]` at the first index whose guard holds,
otherwise fall through (`none`). -/
def randomMatrixGo (matrices : List (List ℚ)) (probs : List ℚ) (u : ℚ) (i : ℕ) :
    Option (List ℚ) :=
  if h : i < matrices.length then
    if probCondition probs u i then matrices.get? i
    else randomMatrixGo matrices probs u (i + 1)
  else none
termination_by matrices.length - i

/-- Method `RandomIFS.randomMatrix` with the random draw `u = Math.random()` made
explicit: the loop scan, falling through to `matrices[matrices.length - 1]`. -/
def randomMatrix (matrices : List (List ℚ)) (probs : List ℚ) (u : ℚ) : List ℚ :=
  (randomMatrixGo matrices probs u 0).getD (matrices.getD (matrices.length - 1) [])

/-- Method `RandomIFS.updateCurrentPoint` with the random draw consumed by the inner
`randomMatrix` call made explicit. -/
def updateCurrentPoint (ifs : RandomIFS) (u : ℚ) : RandomIFS :=
  { ifs with currentPoint :=
      applyMatrix (randomMatrix ifs.matrices ifs.transformProbs u) ifs.currentPoint }

/-- The body of the `for` loop of `RandomIFS.iterate`, run `n` times with the
random draws `us`: emit the current point (red while `pointsDrawn < 10`),
update the current point, increment `pointsDrawn`. -/
def iterateLoop : RandomIFS → List ℚ → ℕ → RandomIFS × List Emission
  | ifs, _, 0 => (ifs, [])
  | ifs, us, n + 1 =>
    let kind : EmissionKind := if ifs.pointsDrawn < 10 then .highlight else .normal
    let em : Emission := ⟨invWindowTransform ifs ifs.currentPoint, kind⟩
    let ifs1 := updateCurrentPoint ifs (us.headD 0)
    let ifs2 := { ifs1 with pointsDrawn := ifs1.pointsDrawn + 1 }
    let rest := iterateLoop ifs2 us.tail n
    (rest.1, em :: rest.2)

/-- Method `RandomIFS.iterate`: increment `numIters`, then run the point loop
`numPoints` times.  Returns the new state and the emitted points in order. -/
def iterate (ifs : RandomIFS) (us : List ℚ) : RandomIFS × List Emission :=
  iterateLoop { ifs with numIters := ifs.numIters + 1 } us ifs.numPoints

/-- A whole run of the orbit: one `iterate` call per entry of `calls`, with the
emissions of all calls concatenated in order. -/
def iterateRun : RandomIFS → List (List ℚ) → RandomIFS × List Emission
  | ifs, [] => (ifs, [])
  | ifs, us :: rest =>
    let r1 := iterate ifs us
    let r2 := iterateRun r1.1 rest
    (r2.1, r1.2 ++ r2.2)

/-- The inner trial loop of `RandomIFS.findFixedPointStochastic` for a fixed
`matrix`: for each candidate pixel point, map it to window space, apply the
matrix, and return the window point when both axis distances are within
`POINT_TOLERANCE`.  The source bounds this loop by `FIXED_PT_TRIES = 1000`
trials; here the trial points are the entries of the list. -/
def tryFixedPoint (ifs : RandomIFS) (matrix : List ℚ) : List (ℚ × ℚ) → Option Coordinate
  | [] => none
  | pt :: rest =>
    let randomPoint : Coordinate := ⟨pt.1, pt.2⟩
    let randomPointWindowTransformed := windowTransform ifs randomPoint
    let transformedPoint := applyMatrix matrix randomPointWindowTransformed
    let distX := |randomPointWindowTransformed.x - transformedPoint.x|
    let distY := |randomPointWindowTransformed.y - transformedPoint.y|
    if distX ≤ POINT_TOLERANCE ∧ distY ≤ POINT_TOLERANCE then
      some randomPointWindowTransformed
    else tryFixedPoint ifs matrix rest

/-- Method `RandomIFS.findFixedPointStochastic`: each round of the outer
`while (true)` loop picks a matrix with `this.randomMatrix()` (draw `r.1`) and
runs the trial loop on the round's candidate points `r.2`.  Exhausting the
round list models the loop running forever without returning. -/
def findFixedPointStochastic (ifs : RandomIFS) : List (ℚ × List (ℚ × ℚ)) → Option Coordinate
  | [] => none
  | r :: rest =>
    let matrix := randomMatrix ifs.matrices ifs.transformProbs r.1
    match tryFixedPoint ifs matrix r.2 with
    | some p => some p
    | none => findFixedPointStochastic ifs rest

/-- Modelled from the spec (section 4.4, step 1): "Pick one transform uniformly
at random from the table (not weighted)" — with a uniform draw `u` in `[0,1)`
this is the entry at index `⌊u · n⌋`. -/
def specUniformChoice (matrices : List (List ℚ)) (u : ℚ) : List ℚ :=
  matrices.getD (⌊u * matrices.length⌋).toNat []

/-- Modelled from the spec: the fixed-point search as section 4.4 describes it,
identical to `findFixedPointStochastic` except that each round's transform is
chosen uniformly instead of by the weighted `randomMatrix`. -/
def findFixedPointUniform (ifs : RandomIFS) : List (ℚ × List (ℚ × ℚ)) → Option Coordinate
  | [] => none
  | r :: rest =>
    let matrix := specUniformChoice ifs.matrices r.1
    match tryFixedPoint ifs matrix r.2 with
    | some p => some p
    | none => findFixedPointUniform ifs rest

/-- The `RandomIFS` constructor.  It stores the window bounds, computes the
origin offsets `x0`, `y0`, calibrates the transforms, gathers the matrices and
seeds `currentPoint` (from `startingPoint` when non-null, otherwise from the
fixed-point search).  The constructor contains no validation and no `throw`,
so it is total and always returns `Except.ok`; the `Except` codomain exists
only so that the presence or absence of a raised `ConfigurationError` can be
stated.  Two modelling notes: in JavaScript a degenerate window makes the
`x0`/`y0` divisions produce non-finite numbers rather than the 0 that division
by zero yields in `ℚ`, without raising; and the `getD ⟨0, 0⟩` fallback covers
only the round-list exhaustion that models a never-returning search. -/
def RandomIFS.construct (width height : ℚ) (table : List AffineTransform) (probs : List ℚ)
    (w : WindowCoordinates) (numPts : ℕ) (startingPoint : Option Coordinate)
    (rounds : List (ℚ × List (ℚ × ℚ))) : Except ConfigurationError RandomIFS :=
  let x0 := ((-w.a1) / (w.b1 - w.a1)) * width
  let y0 := ((-w.a2) / (w.b2 - w.a2)) * height
  let affineTransforms := calibrateAffineTransforms width height table
  let matrices := gatherMatrices affineTransforms
  let base : RandomIFS :=
    { width := width, height := height, matrices := matrices, transformProbs := probs,
      currentPoint := ⟨0, 0⟩, numPoints := numPts, numIters := 0, pointsDrawn := 0,
      a1 := w.a1, b1 := w.b1, a2 := w.a2, b2 := w.b2, x0 := x0, y0 := y0 }
  Except.ok { base with currentPoint :=
      match startingPoint with
      | some p => p
      | none => (findFixedPointStochastic base rounds).getD ⟨0, 0⟩ }

/-- A concrete instance on the unit window `[0,2]×[0,2]` over a `100×100`
canvas, used to instantiate the coordinate round-trip. -/
def exWindowIFS : RandomIFS :=
  { width := 100, height := 100, matrices := [], transformProbs := [],
    currentPoint := ⟨0, 0⟩, numPoints := 0, numIters := 0, pointsDrawn := 0,
    a1 := 0, b1 := 2, a2 := 0, b2 := 2, x0 := 0, y0 := 0 }

/-- A concrete instance on the unit window with two transforms: the constant
map to the origin and the constant map to `(100, 100)`, with cumulative
probabilities `[0, 9/10, 1]`. -/
def ifsP1 : RandomIFS :=
  { width := 100, height := 100,
    matrices := [[0, 0, 0, 0, 0, 0], [0, 0, 0, 0, 100, 100]],
    transformProbs := [0, 9/10, 1],
    currentPoint := ⟨0, 0⟩, numPoints := 1, numIters := 0, pointsDrawn := 0,
    a1 := 0, b1 := 1, a2 := 0, b2 := 1, x0 := 0, y0 := 0 }

/-- The same instance as `ifsP1` but with cumulative probabilities
`[0, 1/10, 1]`: the two differ only in the configured probability table. -/
def ifsP2 : RandomIFS :=
  { ifsP1 with transformProbs := [0, 1/10, 1] }

/-- One round of randomness for the fixed-point search: outer draw `1/2` and a
single candidate pixel point `(0, 0)`. -/
def roundsC3 : List (ℚ × List (ℚ × ℚ)) :=
  [(1/2, [(0, 0)])]

/-- A concrete orbit on the unit window whose single transform is the constant
map to the origin, emitting 12 points per `iterate` call. -/
def exOrbitIFS : RandomIFS :=
  { width := 100, height := 100, matrices := [[0, 0, 0, 0, 0, 0]],
    transformProbs := [0, 1], currentPoint := ⟨0, 0⟩, numPoints := 12,
    numIters := 0, pointsDrawn := 0,
    a1 := 0, b1 := 1, a2 := 0, b2 := 1, x0 := 0, y0 := 0 }

/-- Claim C1: for every non-degenerate window and every pixel point within the
canvas bounds, mapping a pixel point into window space and back returns the
point floored to the pixel grid. -/
theorem invWindowTransform_windowTransform (ifs : RandomIFS) (p : Coordinate)
    (hb1 : ifs.b1 ≠ ifs.a1) (hb2 : ifs.b2 ≠ ifs.a2)
    (hpx0 : 0 ≤ p.x) (hpx1 : p.x < ifs.width)
    (hpy0 : 0 ≤ p.y) (hpy1 : p.y < ifs.height) :
    invWindowTransform ifs (windowTransform ifs p)
      = ⟨((⌊p.x⌋ : ℤ) : ℚ), ((⌊p.y⌋ : ℤ) : ℚ)⟩ := by
  have h1 : ifs.b1 - ifs.a1 ≠ 0 := sub_ne_zero_of_ne hb1
  have h2 : ifs.b2 - ifs.a2 ≠ 0 := sub_ne_zero_of_ne hb2
  simp only [invWindowTransform, windowTransform]
  rw [mul_div_cancel_right₀ _ h1, mul_div_cancel_right₀ _ h2, sub_add_cancel, sub_add_cancel]

/-- Witness for C1 at the window `[0,2]×[0,2]`, canvas `100×100`, pixel point
`(3/2, 5/2)`. -/
theorem invWindowTransform_windowTransform_witness :
    invWindowTransform exWindowIFS (windowTransform exWindowIFS ⟨3/2, 5/2⟩)
      = ⟨((⌊(3/2 : ℚ)⌋ : ℤ) : ℚ), ((⌊(5/2 : ℚ)⌋ : ℤ) : ℚ)⟩ := by
  exact invWindowTransform_windowTransform exWindowIFS ⟨3/2, 5/2⟩
    (by norm_num [exWindowIFS]) (by norm_num [exWindowIFS]) (by norm_num)
    (by norm_num [exWindowIFS]) (by norm_num) (by norm_num [exWindowIFS])

/-- Claim C2 counterexample: `applyMatrix` is not the exact real-valued affine
formula — it floors both components.  At matrix `[0,0,0,0,1/2,1/2]` and point
`(0,0)` the code returns `(0,0)` while the formula gives `(1/2,1/2)`. -/
theorem applyMatrix_ne_affineFormula :
    applyMatrix [0, 0, 0, 0, 1/2, 1/2] ⟨0, 0⟩
      ≠ affineFormula [0, 0, 0, 0, 1/2, 1/2] ⟨0, 0⟩ := by
  norm_num [applyMatrix, affineFormula, Coordinate.mk.injEq]

/-- Claim C2 amended: `applyMatrix` returns the affine formula with both
output components floored to the next lower integer. -/
theorem applyMatrix_eq_floor_affineFormula (matrix : List ℚ) (c : Coordinate) :
    applyMatrix matrix c
      = ⟨((⌊(affineFormula matrix c).x⌋ : ℤ) : ℚ),
         ((⌊(affineFormula matrix c).y⌋ : ℤ) : ℚ)⟩ :=
  rfl

/-- Claim C10: every orbit state reached by an `updateCurrentPoint` step has an
integer-valued current point; since this holds for every state and every draw,
the invariant is preserved by every subsequent iteration step. -/
theorem updateCurrentPoint_integer (ifs : RandomIFS) (u : ℚ) :
    ∃ zx zy : ℤ, (updateCurrentPoint ifs u).currentPoint.x = (zx : ℚ)
      ∧ (updateCurrentPoint ifs u).currentPoint.y = (zy : ℚ) :=
  ⟨_, _, rfl, rfl⟩

/-- Claim C8 counterexample: constructing with the degenerate window
`a1 = b1 = 0` succeeds — no `ConfigurationError` is raised. -/
theorem construct_degenerate_ok :
    (RandomIFS.construct 100 100 [⟨1, 0, 0, 1, 0, 0⟩] [0, 1] ⟨0, 0, 0, 1⟩ 1
      (some ⟨0, 0⟩) []).isOk = true :=
  rfl

/-- Claim C8 amended: the constructor performs no validation at all — for every
input, degenerate windows included, it returns normally with the state
assembled from its arguments, and no `ConfigurationError` is ever produced. -/
theorem construct_never_errors (width height : ℚ) (table : List AffineTransform)
    (probs : List ℚ) (w : WindowCoordinates) (numPts : ℕ) (sp : Option Coordinate)
    (rounds : List (ℚ × List (ℚ × ℚ))) :
    ∃ ifs : RandomIFS,
      RandomIFS.construct width height table probs w numPts sp rounds = Except.ok ifs
        ∧ ifs.a1 = w.a1 ∧ ifs.b1 = w.b1 ∧ ifs.a2 = w.a2 ∧ ifs.b2 = w.b2
        ∧ ifs.numPoints = numPts :=
  ⟨_, rfl, rfl, rfl, rfl, rfl, rfl⟩

/-- Claim C9 counterexample: calibration is not idempotent — applying
`calibrateAffineTransforms` a second time on a `2×2` canvas rescales `e` and
`f` again. -/
theorem calibrate_twice_ne :
    calibrateAffineTransforms 2 2 (calibrateAffineTransforms 2 2 [⟨0, 0, 0, 0, 1, 1⟩])
      ≠ calibrateAffineTransforms 2 2 [⟨0, 0, 0, 0, 1, 1⟩] := by
  norm_num [calibrateAffineTransforms, AffineTransform.mk.injEq]

/-- Claim C9 amended: the constructor applies calibration exactly once (the
stored matrices are gathered from a single calibration pass), but the
operation itself is not idempotent and nothing makes a repeat a no-op — a
second application rescales `e` and `f` again, composing multiplicatively. -/
theorem calibrate_once_not_idempotent (w1 h1 w2 h2 : ℚ) (ts : List AffineTransform) :
    calibrateAffineTransforms w2 h2 (calibrateAffineTransforms w1 h1 ts)
      = calibrateAffineTransforms (w1 * w2) (h1 * h2) ts
    ∧ ∀ (width height : ℚ) (table : List AffineTransform) (probs : List ℚ)
        (w : WindowCoordinates) (numPts : ℕ) (sp : Option Coordinate)
        (rounds : List (ℚ × List (ℚ × ℚ))),
        ∃ ifs : RandomIFS,
          RandomIFS.construct width height table probs w numPts sp rounds = Except.ok ifs
            ∧ ifs.matrices = gatherMatrices (calibrateAffineTransforms width height table) := by
  constructor
  · simp only [calibrateAffineTransforms, List.map_map]
    apply List.map_congr_left
    intro t _
    simp [Function.comp, mul_assoc]
  · intro width height table probs w numPts sp rounds
    exact ⟨_, rfl, rfl⟩

theorem ffps_ifsP1_eval : findFixedPointStochastic ifsP1 roundsC3 = some ⟨0, 0⟩ := by
  have hm : randomMatrix ifsP1.matrices ifsP1.transformProbs (1/2) = [0, 0, 0, 0, 0, 0] := by
    rw [ifsP1, randomMatrix, randomMatrixGo]
    norm_num [probCondition]
  rw [roundsC3, findFixedPointStochastic, hm, tryFixedPoint]
  norm_num [windowTransform, applyMatrix, POINT_TOLERANCE, ifsP1]

theorem ffps_ifsP2_eval : findFixedPointStochastic ifsP2 roundsC3 = none := by
  have hm : randomMatrix ifsP2.matrices ifsP2.transformProbs (1/2) = [0, 0, 0, 0, 100, 100] := by
    rw [ifsP2, ifsP1, randomMatrix, randomMatrixGo, randomMatrixGo]
    norm_num [probCondition]
  rw [roundsC3, findFixedPointStochastic, hm, tryFixedPoint]
  norm_num [windowTransform, applyMatrix, POINT_TOLERANCE, ifsP2, ifsP1,
    findFixedPointStochastic, tryFixedPoint]

theorem ffpu_ifsP1_eval : findFixedPointUniform ifsP1 roundsC3 = none := by
  have hm : specUniformChoice ifsP1.matrices (1/2) = [0, 0, 0, 0, 100, 100] := by
    rw [ifsP1, specUniformChoice]
    norm_num
  rw [roundsC3, findFixedPointUniform, hm, tryFixedPoint]
  norm_num [windowTransform, applyMatrix, POINT_TOLERANCE, ifsP1,
    findFixedPointUniform, tryFixedPoint]

/-- Claim C3 counterexample: on the same randomness, the fixed-point search of
the code (which picks each round's transform with the weighted `randomMatrix`)
disagrees with the spec's uniform-choice search: with cumulative probabilities
`[0, 9/10, 1]` and outer draw `1/2` the code picks the first transform and
succeeds, while the uniform rule picks the second and fails. -/
theorem findFixedPoint_not_uniform :
    findFixedPointStochastic ifsP1 roundsC3 ≠ findFixedPointUniform ifsP1 roundsC3 := by
  rw [ffps_ifsP1_eval, ffpu_ifsP1_eval]
  simp

/-- Claim C3 amended: the transform whose fixed point is sought is chosen by
the same weighted `randomMatrix` sampling used during iteration — a round with
outer draw `u` tries exactly the matrix `randomMatrix matrices transformProbs u`
— and the search therefore depends on the configured probabilities: two
instances differing only in their probability tables return different results
on identical randomness. -/
theorem findFixedPoint_weighted_choice :
    (∀ (ifs : RandomIFS) (u : ℚ) (pts : List (ℚ × ℚ)),
      findFixedPointStochastic ifs [(u, pts)]
        = tryFixedPoint ifs (randomMatrix ifs.matrices ifs.transformProbs u) pts)
    ∧ findFixedPointStochastic ifsP1 roundsC3 = some ⟨0, 0⟩
    ∧ findFixedPointStochastic ifsP2 roundsC3 = none := by
  refine ⟨fun ifs u pts => ?_, ffps_ifsP1_eval, ffps_ifsP2_eval⟩
  rw [findFixedPointStochastic]
  cases htry : tryFixedPoint ifs (randomMatrix ifs.matrices ifs.transformProbs u) pts with
  | none => simp [htry, findFixedPointStochastic]
  | some p => simp [htry]

/-- The loop scan of `randomMatrix` only ever returns entries of the matrix
list. -/
theorem randomMatrixGo_mem (matrices : List (List ℚ)) (probs : List ℚ) (u : ℚ) :
    ∀ n i m, matrices.length - i ≤ n → randomMatrixGo matrices probs u i = some m →
      m ∈ matrices := by
  intro n
  induction n with
  | zero =>
    intro i m hn h
    rw [randomMatrixGo] at h
    rw [dif_neg (by omega)] at h
    exact absurd h (by simp)
  | succ n ih =>
    intro i m hn h
    rw [randomMatrixGo] at h
    by_cases hi : i < matrices.length
    · rw [dif_pos hi] at h
      by_cases hc : probCondition probs u i
      · rw [if_pos hc] at h
        exact List.get?_mem h
      · rw [if_neg hc] at h
        exact ih (i + 1) m (by omega) h
    · rw [dif_neg hi] at h
      exact absurd h (by simp)

/-- Lemma that `randomMatrix` returns an entry of a nonempty matrix list: either the scan
returns one, or the fall-through returns the last entry. -/
theorem randomMatrix_mem (matrices : List (List ℚ)) (probs : List ℚ) (u : ℚ)
    (hne : matrices ≠ []) : randomMatrix matrices probs u ∈ matrices := by
  rw [randomMatrix]
  cases hgo : randomMatrixGo matrices probs u 0 with
  | some m =>
    simpa using randomMatrixGo_mem matrices probs u matrices.length 0 m (by omega) hgo
  | none =>
    have hlen : matrices.length - 1 < matrices.length := by
      cases matrices with
      | nil => exact absurd rfl hne
      | cons a l => simp
    simp only [Option.getD_none]
    rw [List.getD_eq_getElem matrices [] hlen]
    exact List.get_mem matrices (matrices.length - 1) hlen

/-- A point accepted by the trial loop is within `POINT_TOLERANCE` of its image
under the matrix being tried, on each axis. -/
theorem tryFixedPoint_dist (ifs : RandomIFS) (matrix : List ℚ) :
    ∀ pts p, tryFixedPoint ifs matrix pts = some p →
      |p.x - (applyMatrix matrix p).x| ≤ POINT_TOLERANCE
        ∧ |p.y - (applyMatrix matrix p).y| ≤ POINT_TOLERANCE := by
  intro pts
  induction pts with
  | nil =>
    intro p h
    simp [tryFixedPoint] at h
  | cons pt rest ih =>
    intro p h
    simp only [tryFixedPoint] at h
    split at h
    · next hcond =>
      cases h
      exact hcond
    · exact ih p h

/-- Claim C4: whenever the stochastic fixed-point search returns a point `p`,
some transform `T` in the table satisfies `|T(p).x − p.x| ≤ 2` and
`|T(p).y − p.y| ≤ 2` — the transform of the successful trial. -/
theorem findFixedPoint_returns_near_fixed (ifs : RandomIFS)
    (rounds : List (ℚ × List (ℚ × ℚ))) (p : Coordinate)
    (hne : ifs.matrices ≠ [])
    (h : findFixedPointStochastic ifs rounds = some p) :
    ∃ m ∈ ifs.matrices,
      |(applyMatrix m p).x - p.x| ≤ 2 ∧ |(applyMatrix m p).y - p.y| ≤ 2 := by
  induction rounds with
  | nil => simp [findFixedPointStochastic] at h
  | cons r rest ih =>
    simp only [findFixedPointStochastic] at h
    split at h
    · next q hq =>
      cases h
      refine ⟨randomMatrix ifs.matrices ifs.transformProbs r.1,
        randomMatrix_mem _ _ _ hne, ?_, ?_⟩
      · have := (tryFixedPoint_dist ifs _ r.2 p hq).1
        rwa [abs_sub_comm, POINT_TOLERANCE] at this
      · have := (tryFixedPoint_dist ifs _ r.2 p hq).2
        rwa [abs_sub_comm, POINT_TOLERANCE] at this
    · exact ih h

/-- Witness for C4 at the concrete instance `ifsP1` and randomness `roundsC3`,
whose search returns the window point `(0, 0)`. -/
theorem findFixedPoint_returns_near_fixed_witness :
    ∃ m ∈ ifsP1.matrices,
      |(applyMatrix m (⟨0, 0⟩ : Coordinate)).x - (⟨0, 0⟩ : Coordinate).x| ≤ 2
        ∧ |(applyMatrix m (⟨0, 0⟩ : Coordinate)).y - (⟨0, 0⟩ : Coordinate).y| ≤ 2 :=
  findFixedPoint_returns_near_fixed ifsP1 roundsC3 ⟨0, 0⟩ (by simp [ifsP1]) ffps_ifsP1_eval

/-- The point loop leaves `numIters` and `numPoints` unchanged, adds its trip
count to `pointsDrawn`, and emits one point per trip. -/
theorem iterateLoop_counters (n : ℕ) :
    ∀ (ifs : RandomIFS) (us : List ℚ),
      (iterateLoop ifs us n).1.numIters = ifs.numIters
        ∧ (iterateLoop ifs us n).1.pointsDrawn = ifs.pointsDrawn + n
        ∧ (iterateLoop ifs us n).2.length = n
        ∧ (iterateLoop ifs us n).1.numPoints = ifs.numPoints := by
  induction n with
  | zero => intro ifs us; exact ⟨rfl, rfl, rfl, rfl⟩
  | succ n ih =>
    intro ifs us
    simp only [iterateLoop, updateCurrentPoint]
    obtain ⟨h1, h2, h3, h4⟩ := ih
      { ifs with
          currentPoint :=
            applyMatrix (randomMatrix ifs.matrices ifs.transformProbs (us.headD 0))
              ifs.currentPoint,
          pointsDrawn := ifs.pointsDrawn + 1 } us.tail
    refine ⟨h1, ?_, ?_, h4⟩
    · rw [h2]
      show ifs.pointsDrawn + 1 + n = ifs.pointsDrawn + (n + 1)
      omega
    · simp only [List.length_cons, h3]

/-- Claim C6: each `iterate` call increments `numIters` by exactly one,
increments `pointsDrawn` by exactly `numPoints`, and emits exactly `numPoints`
points. -/
theorem iterate_counters (ifs : RandomIFS) (us : List ℚ) :
    (iterate ifs us).1.numIters = ifs.numIters + 1
      ∧ (iterate ifs us).1.pointsDrawn = ifs.pointsDrawn + ifs.numPoints
      ∧ (iterate ifs us).2.length = ifs.numPoints := by
  obtain ⟨h1, h2, h3, _⟩ :=
    iterateLoop_counters ifs.numPoints { ifs with numIters := ifs.numIters + 1 } us
  exact ⟨h1, h2, h3⟩

/-- The kind of the `k`-th point emitted by a point loop depends only on how
many points had been drawn when the loop started, plus `k`, being below 10. -/
theorem iterateLoop_kind (n : ℕ) :
    ∀ (ifs : RandomIFS) (us : List ℚ) (k : ℕ), k < n →
      ((iterateLoop ifs us n).2.getD k default).kind
        = if ifs.pointsDrawn + k < 10 then EmissionKind.highlight else EmissionKind.normal := by
  induction n with
  | zero =>
    intro ifs us k hk
    exact absurd hk (by omega)
  | succ n ih =>
    intro ifs us k hk
    simp only [iterateLoop, updateCurrentPoint]
    match k with
    | 0 =>
      simp only [List.getD_cons_zero, Nat.add_zero]
    | k + 1 =>
      simp only [List.getD_cons_succ]
      rw [ih _ us.tail k (by omega)]
      show (if ifs.pointsDrawn + 1 + k < 10 then EmissionKind.highlight else EmissionKind.normal)
        = if ifs.pointsDrawn + (k + 1) < 10 then EmissionKind.highlight else EmissionKind.normal
      have heq : ifs.pointsDrawn + 1 + k = ifs.pointsDrawn + (k + 1) := by omega
      rw [heq]

/-- Across a whole run of `iterate` calls, the kind of the `k`-th emission
depends only on the initial `pointsDrawn` plus `k` being below 10. -/
theorem iterateRun_kind (calls : List (List ℚ)) :
    ∀ (ifs : RandomIFS) (k : ℕ), k < (iterateRun ifs calls).2.length →
      ((iterateRun ifs calls).2.getD k default).kind
        = if ifs.pointsDrawn + k < 10 then EmissionKind.highlight else EmissionKind.normal := by
  induction calls with
  | nil =>
    intro ifs k hk
    simp [iterateRun] at hk
  | cons us rest ih =>
    intro ifs k hk
    simp only [iterateRun] at hk ⊢
    have hlen : (iterate ifs us).2.length = ifs.numPoints :=
      (iterateLoop_counters ifs.numPoints { ifs with numIters := ifs.numIters + 1 } us).2.2.1
    by_cases hlt : k < (iterate ifs us).2.length
    · rw [List.getD_append _ _ _ _ hlt]
      have := iterateLoop_kind ifs.numPoints { ifs with numIters := ifs.numIters + 1 } us k
        (by rw [hlen] at hlt; exact hlt)
      exact this
    · push_neg at hlt
      rw [List.getD_append_right _ _ _ _ hlt]
      rw [List.length_append] at hk
      have hk2 : k - (iterate ifs us).2.length < (iterateRun (iterate ifs us).1 rest).2.length := by
        omega
      rw [ih (iterate ifs us).1 _ hk2]
      have hpd : (iterate ifs us).1.pointsDrawn = ifs.pointsDrawn + ifs.numPoints :=
        (iterateLoop_counters ifs.numPoints { ifs with numIters := ifs.numIters + 1 } us).2.1
      rw [hpd]
      have heq : ifs.pointsDrawn + ifs.numPoints + (k - (iterate ifs us).2.length)
          = ifs.pointsDrawn + k := by
        rw [hlen] at hlt ⊢
        omega
      rw [heq]

/-- Claim C7: over the lifetime of an orbit started with `pointsDrawn = 0`,
exactly the first 10 emitted points use the highlight emission and every later
point the default one — the kind depends only on the number of points emitted
so far being below 10. -/
theorem iterateRun_first_ten_highlight (ifs : RandomIFS) (calls : List (List ℚ))
    (h0 : ifs.pointsDrawn = 0) (k : ℕ) (hk : k < (iterateRun ifs calls).2.length) :
    ((iterateRun ifs calls).2.getD k default).kind = EmissionKind.highlight ↔ k < 10 := by
  rw [iterateRun_kind calls ifs k hk, h0, Nat.zero_add]
  by_cases h : k < 10
  · simp [h]
  · simp [h]

/-- Witness for C7: on the concrete orbit emitting 12 points in one call, the
11th emission (index 10) is a highlight exactly when `10 < 10` — that is, it
is not highlighted. -/
theorem iterateRun_first_ten_highlight_witness :
    (((iterateRun exOrbitIFS [[]]).2.getD 10 default).kind = EmissionKind.highlight ↔ 10 < 10) := by
  refine iterateRun_first_ten_highlight exOrbitIFS [[]] rfl 10 ?_
  have h1 : (iterate exOrbitIFS []).2.length = exOrbitIFS.numPoints :=
    (iterateLoop_counters exOrbitIFS.numPoints
      { exOrbitIFS with numIters := exOrbitIFS.numIters + 1 } []).2.2.1
  simp only [iterateRun, List.append_nil, h1]
  norm_num [exOrbitIFS]

/-- Modelled from the spec (section 4.2): `sample` returns the transform at
the smallest index `i` such that `cum[i] <= u < cum[i+1]` (strict upper
bound), and a draw of exactly `1.0` returns the last transform. -/
def sampleSpec (matrices : List (List ℚ)) (cum : List ℚ) (u : ℚ) : List ℚ :=
  if u = 1 then matrices.getD (matrices.length - 1) []
  else
    match (List.range matrices.length).find?
        (fun i => decide (cum.getD i 0 ≤ u ∧ u < cum.getD (i + 1) 0)) with
    | some i => matrices.getD i []
    | none => matrices.getD (matrices.length - 1) []

/-- Claim C5 counterexample: with the valid cumulative array `[0, 1/2, 1]` and
the boundary draw `u = 1/2`, the code's closed-interval guard returns the
first transform while the spec's half-open rule selects the second. -/
theorem randomMatrix_ne_sampleSpec :
    ([(0 : ℚ), 1/2, 1].getD 0 0 = 0 ∧ [(0 : ℚ), 1/2, 1].getD 2 0 = 1)
      ∧ randomMatrix [[0], [1]] [0, 1/2, 1] (1/2)
          ≠ sampleSpec [[0], [1]] [0, 1/2, 1] (1/2) := by
  refine ⟨⟨rfl, rfl⟩, ?_⟩
  have hcode : randomMatrix [[0], [1]] [0, 1/2, 1] (1/2) = [0] := by
    rw [randomMatrix, randomMatrixGo]
    norm_num [probCondition]
  have hspec : sampleSpec [[0], [1]] [0, 1/2, 1] (1/2) = [1] := by
    rw [sampleSpec, if_neg (by norm_num)]
    norm_num [List.range_succ]
  rw [hcode, hspec]
  simp

/-- The `randomMatrix` guard at an in-range index is the closed-interval test
on adjacent cumulative entries. -/
theorem probCondition_true_iff (probs : List ℚ) (u : ℚ) (i : ℕ)
    (h1 : i + 1 < probs.length) :
    probCondition probs u i = true
      ↔ (probs.getD i 0 ≤ u ∧ u ≤ probs.getD (i + 1) 0) := by
  have hi : i < probs.length := by omega
  rw [probCondition, List.get?_eq_get hi, List.get?_eq_get h1]
  simp only [decide_eq_true_eq, List.get_eq_getElem]
  rw [List.getD_eq_getElem probs 0 hi, List.getD_eq_getElem probs 0 h1]

/-- If index `i0` is in range, satisfies the guard, and no smaller index does,
then the loop scan started anywhere at or below `i0` returns `matrices[i0]`. -/
theorem randomMatrixGo_eq_of_least (matrices : List (List ℚ)) (probs : List ℚ) (u : ℚ)
    (i0 : ℕ) (hi0 : i0 < matrices.length) (hc : probCondition probs u i0 = true)
    (hmin : ∀ j, j < i0 → probCondition probs u j = false) :
    ∀ d start, i0 - start = d → start ≤ i0 →
      randomMatrixGo matrices probs u start = matrices.get? i0 := by
  intro d
  induction d with
  | zero =>
    intro start hd hs
    have hstart : start = i0 := by omega
    subst hstart
    rw [randomMatrixGo, dif_pos hi0, if_pos hc]
  | succ d ih =>
    intro start hd hs
    have hlt : start < i0 := by omega
    have hstart : start < matrices.length := by omega
    rw [randomMatrixGo, dif_pos hstart, if_neg (by simp [hmin start hlt])]
    exact ih (start + 1) (by omega) (by omega)

/-- A monotone chain of rationals covers every value between its endpoints
with some adjacent closed interval. -/
theorem exists_chain_interval (f : ℕ → ℚ) (u : ℚ) :
    ∀ n, 0 < n → (∀ i, i < n → f i ≤ f (i + 1)) → f 0 ≤ u → u ≤ f n →
      ∃ i, i < n ∧ f i ≤ u ∧ u ≤ f (i + 1) := by
  intro n
  induction n with
  | zero =>
    intro hpos _ _ _
    exact absurd hpos (by omega)
  | succ n ih =>
    intro _ hsort h0 hn
    by_cases hcase : u ≤ f n
    · by_cases hn0 : n = 0
      · subst hn0
        exact ⟨0, by omega, h0, hn⟩
      · obtain ⟨i, hi, h⟩ := ih (by omega) (fun i hi => hsort i (by omega)) h0 hcase
        exact ⟨i, by omega, h⟩
    · push_neg at hcase
      exact ⟨n, by omega, le_of_lt hcase, hn⟩

/-- With a monotone cumulative array running from 0 to 1 over `n + 1` entries,
every `u` in `[0, 1]` lies in some adjacent closed interval. -/
theorem exists_cum_interval (probs : List ℚ) (n : ℕ) (hlen : probs.length = n + 1)
    (hn : 0 < n)
    (hsorted : ∀ i, i + 1 < probs.length → probs.getD i 0 ≤ probs.getD (i + 1) 0)
    (h0 : probs.getD 0 0 = 0) (hlast : probs.getD n 0 = 1)
    (u : ℚ) (hu0 : 0 ≤ u) (hu1 : u ≤ 1) :
    ∃ i, i < n ∧ probs.getD i 0 ≤ u ∧ u ≤ probs.getD (i + 1) 0 := by
  refine exists_chain_interval (fun i => probs.getD i 0) u n hn ?_ ?_ ?_
  · intro i hi
    exact hsorted i (by omega)
  · show probs.getD 0 0 ≤ u
    rw [h0]
    exact hu0
  · show u ≤ probs.getD n 0
    rw [hlast]
    exact hu1

/-- The least-interval characterization of `randomMatrix` for one draw:
the result is the matrix of the smallest adjacent closed interval of the
cumulative array containing the draw. -/
theorem randomMatrix_least_aux (matrices : List (List ℚ)) (probs : List ℚ) (u : ℚ)
    (hne : matrices ≠ [])
    (hlen : probs.length = matrices.length + 1)
    (hsorted : ∀ i, i + 1 < probs.length → probs.getD i 0 ≤ probs.getD (i + 1) 0)
    (h0 : probs.getD 0 0 = 0)
    (hlast : probs.getD matrices.length 0 = 1)
    (hu0 : 0 ≤ u) (hu1 : u ≤ 1) :
    ∃ i, i < matrices.length
      ∧ (probs.getD i 0 ≤ u ∧ u ≤ probs.getD (i + 1) 0)
      ∧ (∀ j, j < i → ¬(probs.getD j 0 ≤ u ∧ u ≤ probs.getD (j + 1) 0))
      ∧ randomMatrix matrices probs u = matrices.getD i [] := by
  have hnpos : 0 < matrices.length := List.length_pos.mpr hne
  have hex : ∃ i, i < matrices.length
      ∧ probs.getD i 0 ≤ u ∧ u ≤ probs.getD (i + 1) 0 :=
    exists_cum_interval probs matrices.length hlen hnpos hsorted h0 hlast u hu0 hu1
  set i0 := Nat.find hex with hi0def
  obtain ⟨hi0n, hcond⟩ := Nat.find_spec hex
  have hmin : ∀ j, j < i0 →
      ¬(probs.getD j 0 ≤ u ∧ u ≤ probs.getD (j + 1) 0) := by
    intro j hj hcj
    exact Nat.find_min hex hj ⟨by omega, hcj⟩
  refine ⟨i0, hi0n, hcond, hmin, ?_⟩
  have hcb : probCondition probs u i0 = true :=
    (probCondition_true_iff probs u i0 (by omega)).mpr hcond
  have hminb : ∀ j, j < i0 → probCondition probs u j = false := by
    intro j hj
    have hj1 : j + 1 < probs.length := by omega
    have := hmin j hj
    rw [← probCondition_true_iff probs u j hj1] at this
    exact Bool.not_eq_true _ ▸ eq_false_of_ne_true this
  have hgo := randomMatrixGo_eq_of_least matrices probs u i0 hi0n hcb hminb i0 0 rfl
    (Nat.zero_le i0)
  rw [randomMatrix, hgo, List.get?_eq_get hi0n, Option.getD_some,
    List.getD_eq_getElem matrices [] hi0n]
  exact List.get_eq_getElem matrices ⟨i0, hi0n⟩

/-- A strictly increasing chain of rationals is strictly increasing across any
positive distance. -/
theorem strict_chain_lt (f : ℕ → ℚ) :
    ∀ d j, 0 < d → (∀ i, i < j + d → f i < f (i + 1)) → f j < f (j + d) := by
  intro d
  induction d with
  | zero =>
    intro j hpos _
    exact absurd hpos (by omega)
  | succ d ih =>
    intro j _ hstrict
    by_cases hd : d = 0
    · subst hd
      exact hstrict j (by omega)
    · have h1 := ih j (by omega) (fun i hi => hstrict i (by omega))
      have h2 := hstrict (j + d) (by omega)
      have hidx : j + (d + 1) = (j + d) + 1 := by omega
      rw [hidx]
      exact lt_trans h1 h2

/-- Claim C5 amended: for a valid cumulative array (length `n + 1`, monotone,
starting at 0 and ending at 1) and a draw `u` in `[0, 1]`, `randomMatrix`
returns the matrix at the smallest index `i` with `cum[i] ≤ u ≤ cum[i+1]`
(closed upper bound, so a draw equal to an interior boundary goes to the
earlier interval); a draw of `0` yields the first matrix, and a draw of
exactly `1` yields — without erroring — the last matrix whenever the
cumulative array is strictly increasing. -/
theorem randomMatrix_least_interval (matrices : List (List ℚ)) (probs : List ℚ) (u : ℚ)
    (hne : matrices ≠ [])
    (hlen : probs.length = matrices.length + 1)
    (hsorted : ∀ i, i + 1 < probs.length → probs.getD i 0 ≤ probs.getD (i + 1) 0)
    (h0 : probs.getD 0 0 = 0)
    (hlast : probs.getD matrices.length 0 = 1)
    (hu0 : 0 ≤ u) (hu1 : u ≤ 1) :
    (∃ i, i < matrices.length
      ∧ (probs.getD i 0 ≤ u ∧ u ≤ probs.getD (i + 1) 0)
      ∧ (∀ j, j < i → ¬(probs.getD j 0 ≤ u ∧ u ≤ probs.getD (j + 1) 0))
      ∧ randomMatrix matrices probs u = matrices.getD i [])
    ∧ randomMatrix matrices probs 0 = matrices.getD 0 []
    ∧ ((∀ i, i + 1 < probs.length → probs.getD i 0 < probs.getD (i + 1) 0) →
        randomMatrix matrices probs 1 = matrices.getD (matrices.length - 1) []) := by
  have hnpos : 0 < matrices.length := List.length_pos.mpr hne
  refine ⟨randomMatrix_least_aux matrices probs u hne hlen hsorted h0 hlast hu0 hu1, ?_, ?_⟩
  · obtain ⟨i, hi, hcond, hminp, heq⟩ :=
      randomMatrix_least_aux matrices probs 0 hne hlen hsorted h0 hlast le_rfl zero_le_one
    have hi0 : i = 0 := by
      by_contra hne0
      refine hminp 0 (by omega) ⟨?_, ?_⟩
      · rw [h0]
      · have hstep := hsorted 0 (by omega)
        rw [h0] at hstep
        exact hstep
    rw [hi0] at heq
    exact heq
  · intro hstrict
    obtain ⟨i, hi, hcond, hminp, heq⟩ :=
      randomMatrix_least_aux matrices probs 1 hne hlen hsorted h0 hlast zero_le_one le_rfl
    have hieq : i = matrices.length - 1 := by
      by_contra hne1
      have hi1 : i + 1 < matrices.length := by omega
      have hchain := strict_chain_lt (fun j => probs.getD j 0)
        (matrices.length - (i + 1)) (i + 1) (by omega)
        (fun j hj => hstrict j (by omega))
      have hidx : i + 1 + (matrices.length - (i + 1)) = matrices.length := by omega
      rw [hidx] at hchain
      have hlt1 : probs.getD (i + 1) 0 < 1 := by
        rw [← hlast]
        exact hchain
      exact absurd hcond.2 (not_le.mpr hlt1)
    rw [hieq] at heq
    exact heq

/-- Witness for C5 at matrices `[[0], [1]]`, cumulative array `[0, 1/2, 1]`
and draw `1/4`. -/
theorem randomMatrix_least_interval_witness :
    (∃ i, i < ([[0], [1]] : List (List ℚ)).length
      ∧ (([0, 1/2, 1] : List ℚ).getD i 0 ≤ 1/4
          ∧ (1/4 : ℚ) ≤ ([0, 1/2, 1] : List ℚ).getD (i + 1) 0)
      ∧ (∀ j, j < i → ¬(([0, 1/2, 1] : List ℚ).getD j 0 ≤ 1/4
          ∧ (1/4 : ℚ) ≤ ([0, 1/2, 1] : List ℚ).getD (j + 1) 0))
      ∧ randomMatrix [[0], [1]] [0, 1/2, 1] (1/4)
          = ([[0], [1]] : List (List ℚ)).getD i [])
    ∧ randomMatrix [[0], [1]] [0, 1/2, 1] 0 = ([[0], [1]] : List (List ℚ)).getD 0 []
    ∧ ((∀ i, i + 1 < ([0, 1/2, 1] : List ℚ).length →
          ([0, 1/2, 1] : List ℚ).getD i 0 < ([0, 1/2, 1] : List ℚ).getD (i + 1) 0) →
        randomMatrix [[0], [1]] [0, 1/2, 1] 1
          = ([[0], [1]] : List (List ℚ)).getD (([[0], [1]] : List (List ℚ)).length - 1) []) := by
  refine randomMatrix_least_interval [[0], [1]] [0, 1/2, 1] (1/4)
    (by simp) rfl ?_ rfl rfl (by norm_num) (by norm_num)
  intro i hi
  have hcase : i = 0 ∨ i = 1 := by
    simp only [List.length_cons, List.length_nil] at hi
    omega
  rcases hcase with h | h <;> subst h <;> norm_num
